import Mathlib

/-!
Shallow embedding of `src/main.rs` of wow-influxdb: the auction-listing
aggregation loop of `update_prices`, the metric-point construction, the
per-pair update loop of `perform_single_update`, and the CSV name table of
`read_names_by_id`.  Machine integers (Rust `i64`) are modelled as `Int`;
the explicitly overflow-handling operation of the source,
`i64::saturating_add`, is modelled with its clamping written out, and the
panicking operation `i64` division (line 167) is modelled by returning
`none` when the divisor is zero.  The plain `+= 1` on the auction count
cannot overflow in any real execution (a `Vec` of listings is bounded far
below `2^63` elements), so it is modelled as exact `Int` addition.
-/

namespace WowInflux

/-- Rust struct `Item` (main.rs lines 375-380): only `id` is read by the
aggregation; `rand` and `seed` are carried verbatim. -/
structure Item where
  id : Int
  rand : Option Int
  seed : Option Int
deriving DecidableEq, Repr

/-- Rust struct `Auction` (main.rs lines 382-390): one auction listing as
parsed from the API response. -/
structure Auction where
  id : Int
  item : Item
  bid : Int
  buyout : Int
  quantity : Int
  time_left : String
deriving DecidableEq, Repr

/-- Rust struct `ItemData` (main.rs lines 397-401) with
`#[derive(Default)]`: all three fields start at 0. -/
structure ItemData where
  auctions : Int
  total_items : Int
  min_buyout : Int
deriving DecidableEq, Repr

instance : Inhabited ItemData := ⟨⟨0, 0, 0⟩⟩

/-- Smallest `i64` value. -/
def i64Min : Int := -(2 ^ 63)

/-- Largest `i64` value. -/
def i64Max : Int := 2 ^ 63 - 1

/-- Rust `i64::saturating_add` (used at main.rs line 165): the exact sum
clamped to the representable `i64` range instead of wrapping. -/
def saturating_add (a b : Int) : Int := max i64Min (min i64Max (a + b))

/-- One iteration of the aggregation loop body of `update_prices`
(main.rs lines 163-171), acting on the `by_items` entry of
`auction.item.id`.  Returns `none` exactly when the Rust code would panic:
`auction.buyout / auction.quantity` at line 167 is an `i64` division that
panics when `quantity` is zero (it is reached only when `buyout > 0`).
Rust `i64` division truncates toward zero, which is `Int.tdiv`. -/
def updateEntry (entry : ItemData) (auction : Auction) : Option ItemData :=
  let entry' : ItemData :=
    { entry with
        auctions := entry.auctions + 1
        total_items := saturating_add entry.total_items auction.quantity }
  if 0 < auction.buyout then
    if auction.quantity = 0 then
      none
    else
      let mb := Int.tdiv auction.buyout auction.quantity
      if entry'.min_buyout = 0 ∨ mb < entry'.min_buyout then
        some { entry' with min_buyout := mb }
      else
        some entry'
  else
    some entry'

/-- The `by_items` map (main.rs line 160), modelled extensionally: a key is
present exactly when the function returns `some`. -/
def ItemMap : Type := Int → Option ItemData

/-- The empty `HashMap` the loop starts from. -/
def emptyMap : ItemMap := fun _ => none

/-- Store `d` under key `id`, as the in-place mutation of the entry does. -/
def insertEntry (m : ItemMap) (id : Int) (d : ItemData) : ItemMap :=
  fun k => if k = id then some d else m k

/-- One whole iteration of `for auction in auctions` (main.rs lines
162-172): `by_items.entry(auction.item.id).or_default()` reads the current
entry (or `ItemData::default()`), the body updates it, and the updated
entry is stored back.  `none` propagates a panic. -/
def aggStep (m : ItemMap) (auction : Auction) : Option ItemMap :=
  (updateEntry ((m auction.item.id).getD default) auction).map
    (insertEntry m auction.item.id)

/-- The aggregation loop of `update_prices` (main.rs lines 160-172): fold
the listing sequence, in input order, into the `by_items` map.  The result
is `none` exactly when some iteration panics (division by zero). -/
def aggregate (auctions : List Auction) : Option ItemMap :=
  auctions.foldlM aggStep emptyMap

/-- Total restatement of `updateEntry` for inputs that do not panic
(`Int.tdiv x 0 = 0` in Lean; the branch is unreachable under the side
condition used wherever this function stands in for `updateEntry`). -/
def updateEntryT (entry : ItemData) (auction : Auction) : ItemData :=
  let entry' : ItemData :=
    { entry with
        auctions := entry.auctions + 1
        total_items := saturating_add entry.total_items auction.quantity }
  if 0 < auction.buyout then
    let mb := Int.tdiv auction.buyout auction.quantity
    if entry'.min_buyout = 0 ∨ mb < entry'.min_buyout then
      { entry' with min_buyout := mb }
    else
      entry'
  else
    entry'

/-- Total restatement of `aggStep`. -/
def aggStepT (m : ItemMap) (auction : Auction) : ItemMap :=
  insertEntry m auction.item.id
    (updateEntryT ((m auction.item.id).getD default) auction)

/-- Total restatement of `aggregate`. -/
def aggregateT (auctions : List Auction) : ItemMap :=
  auctions.foldl aggStepT emptyMap

/-- Predicate selecting the listings of one item id, as the `by_items`
key does. -/
def sameItem (id : Int) (a : Auction) : Bool := a.item.id == id

/-- The aggregation restricted to the listings of one item id. -/
def runEntry (d : ItemData) (l : List Auction) : ItemData :=
  l.foldl updateEntryT d

/-- Unit buyouts (`buyout / quantity`, truncated `i64` division) of the
listings of `l` with item id `id` and positive buyout, in input order. -/
def unitBuyouts (l : List Auction) (id : Int) : List Int :=
  (l.filter fun a => sameItem id a && decide (0 < a.buyout)).map
    fun a => Int.tdiv a.buyout a.quantity

theorem updateEntry_eq_some (entry : ItemData) (a : Auction)
    (h : 0 < a.buyout → a.quantity ≠ 0) :
    updateEntry entry a = some (updateEntryT entry a) := by
  simp only [updateEntry, updateEntryT]
  split_ifs with hb hq hc <;> first | rfl | exact absurd hq (h hb)

theorem updateEntryT_auctions (entry : ItemData) (a : Auction) :
    (updateEntryT entry a).auctions = entry.auctions + 1 := by
  simp only [updateEntryT]
  split_ifs <;> rfl

theorem updateEntryT_total_items (entry : ItemData) (a : Auction) :
    (updateEntryT entry a).total_items =
      saturating_add entry.total_items a.quantity := by
  simp only [updateEntryT]
  split_ifs <;> rfl

theorem updateEntryT_min_buyout (entry : ItemData) (a : Auction) :
    (updateEntryT entry a).min_buyout =
      if 0 < a.buyout ∧
          (entry.min_buyout = 0 ∨
            Int.tdiv a.buyout a.quantity < entry.min_buyout) then
        Int.tdiv a.buyout a.quantity
      else entry.min_buyout := by
  simp only [updateEntryT]
  by_cases hb : 0 < a.buyout
  · simp only [hb, true_and]
    split_ifs <;> rfl
  · simp [hb]

theorem foldlM_aggStep_eq (l : List Auction) :
    ∀ m : ItemMap, (∀ a ∈ l, 0 < a.buyout → a.quantity ≠ 0) →
      List.foldlM aggStep m l = some (List.foldl aggStepT m l) := by
  induction l with
  | nil => intro m _; rfl
  | cons a t ih =>
    intro m h
    have hstep : aggStep m a = some (aggStepT m a) := by
      unfold aggStep
      rw [updateEntry_eq_some _ _ (h a (List.mem_cons_self a t))]
      rfl
    rw [List.foldlM_cons, hstep]
    exact ih (aggStepT m a) fun b hb => h b (List.mem_cons_of_mem a hb)

theorem aggregate_eq_some (l : List Auction)
    (h : ∀ a ∈ l, 0 < a.buyout → a.quantity ≠ 0) :
    aggregate l = some (aggregateT l) :=
  foldlM_aggStep_eq l emptyMap h

/-- One per-item step of the aggregation, on the optional stored entry. -/
def entryStep (st : Option ItemData) (a : Auction) : Option ItemData :=
  some (updateEntryT (st.getD default) a)

theorem foldl_aggStepT_apply (l : List Auction) :
    ∀ (m : ItemMap) (id : Int),
      (List.foldl aggStepT m l) id =
        List.foldl entryStep (m id) (l.filter (sameItem id)) := by
  induction l with
  | nil => intro m id; rfl
  | cons a t ih =>
    intro m id
    rw [List.foldl_cons, ih]
    by_cases hid : a.item.id = id
    · have hf : sameItem id a = true := by
        simp [sameItem, hid]
      rw [List.filter_cons_of_pos hf, List.foldl_cons]
      congr 1
      simp [aggStepT, insertEntry, entryStep, hid]
    · have hf : ¬ sameItem id a = true := by
        simp [sameItem, hid]
      rw [List.filter_cons_of_neg hf]
      congr 1
      simp only [aggStepT, insertEntry]
      rw [if_neg fun hh => hid hh.symm]

theorem foldl_entryStep_some (l : List Auction) :
    ∀ d : ItemData, List.foldl entryStep (some d) l = some (runEntry d l) := by
  induction l with
  | nil => intro d; rfl
  | cons a t ih =>
    intro d
    rw [List.foldl_cons, runEntry, List.foldl_cons]
    exact ih (updateEntryT d a)

theorem foldl_entryStep_none (l : List Auction) :
    List.foldl entryStep (none : Option ItemData) l =
      if l = [] then none else some (runEntry default l) := by
  cases l with
  | nil => rfl
  | cons a t =>
    show List.foldl entryStep (entryStep none a) t = _
    rw [if_neg (List.cons_ne_nil a t)]
    have h1 : entryStep none a = some (updateEntryT default a) := rfl
    rw [h1, foldl_entryStep_some]
    rfl

/-- The aggregation map, per item id: absent when the id never occurs, and
otherwise the fold of the aggregation body over exactly the listings of
that id, in input order, starting from `ItemData::default()`. -/
theorem aggregateT_apply (l : List Auction) (id : Int) :
    aggregateT l id =
      if l.filter (sameItem id) = [] then none
      else some (runEntry default (l.filter (sameItem id))) := by
  rw [aggregateT, foldl_aggStepT_apply]
  exact foldl_entryStep_none _

theorem runEntry_auctions (l : List Auction) :
    ∀ d : ItemData, (runEntry d l).auctions = d.auctions + l.length := by
  induction l with
  | nil => intro d; simp [runEntry]
  | cons a t ih =>
    intro d
    rw [runEntry, List.foldl_cons]
    have := ih (updateEntryT d a)
    rw [runEntry] at this
    rw [this, updateEntryT_auctions]
    simp [List.length_cons]
    omega

theorem runEntry_total_items (l : List Auction) :
    ∀ d : ItemData, (runEntry d l).total_items =
      List.foldl (fun t a => saturating_add t a.quantity) d.total_items l := by
  induction l with
  | nil => intro d; simp [runEntry]
  | cons a t ih =>
    intro d
    rw [runEntry, List.foldl_cons, List.foldl_cons]
    have := ih (updateEntryT d a)
    rw [runEntry] at this
    rw [this, updateEntryT_total_items]

/-- Unit buyouts of the listings of `l` with positive buyout, in order. -/
def unitsOf (l : List Auction) : List Int :=
  (l.filter fun a => decide (0 < a.buyout)).map
    fun a => Int.tdiv a.buyout a.quantity

theorem unitsOf_cons_pos (a : Auction) (t : List Auction) (hb : 0 < a.buyout) :
    unitsOf (a :: t) = Int.tdiv a.buyout a.quantity :: unitsOf t := by
  unfold unitsOf
  rw [List.filter_cons_of_pos (by simpa using hb), List.map_cons]

theorem unitsOf_cons_neg (a : Auction) (t : List Auction) (hb : ¬ 0 < a.buyout) :
    unitsOf (a :: t) = unitsOf t := by
  unfold unitsOf
  rw [List.filter_cons_of_neg (by simpa using hb)]

theorem runEntry_min_pos (l : List Auction) :
    ∀ d : ItemData, 0 < d.min_buyout → (∀ u ∈ unitsOf l, 0 < u) →
      (runEntry d l).min_buyout = List.foldl min d.min_buyout (unitsOf l) := by
  induction l with
  | nil => intro d _ _; rfl
  | cons a t ih =>
    intro d hd hu
    rw [runEntry, List.foldl_cons]
    by_cases hb : 0 < a.buyout
    · have hun := unitsOf_cons_pos a t hb
      have hupos : 0 < Int.tdiv a.buyout a.quantity := by
        apply hu
        rw [hun]
        exact List.mem_cons_self _ _
      have hd' : (updateEntryT d a).min_buyout =
          min d.min_buyout (Int.tdiv a.buyout a.quantity) := by
        rw [updateEntryT_min_buyout]
        have hne : ¬ d.min_buyout = 0 := by omega
        rw [min_def]
        split_ifs <;> omega
      have ihh := ih (updateEntryT d a)
        (by rw [hd']; exact lt_min hd hupos)
        (fun u hmem => hu u (by rw [hun]; exact List.mem_cons_of_mem _ hmem))
      rw [runEntry] at ihh
      rw [ihh, hd', hun, List.foldl_cons, min_comm]
    · have hun := unitsOf_cons_neg a t hb
      have hd' : (updateEntryT d a).min_buyout = d.min_buyout := by
        rw [updateEntryT_min_buyout]
        simp [hb]
      have ihh := ih (updateEntryT d a) (by rw [hd']; exact hd)
        (fun u hmem => hu u (by rw [hun]; exact hmem))
      rw [runEntry] at ihh
      rw [ihh, hd', hun]

theorem runEntry_min_zero (l : List Auction) :
    ∀ d : ItemData, d.min_buyout = 0 → (∀ u ∈ unitsOf l, 0 < u) →
      (runEntry d l).min_buyout = ((unitsOf l).min?).getD 0 := by
  induction l with
  | nil => intro d hd _; rw [runEntry, List.foldl_nil, hd]; rfl
  | cons a t ih =>
    intro d hd hu
    rw [runEntry, List.foldl_cons]
    by_cases hb : 0 < a.buyout
    · have hun := unitsOf_cons_pos a t hb
      have hupos : 0 < Int.tdiv a.buyout a.quantity := by
        apply hu
        rw [hun]
        exact List.mem_cons_self _ _
      have hd' : (updateEntryT d a).min_buyout =
          Int.tdiv a.buyout a.quantity := by
        rw [updateEntryT_min_buyout]
        simp [hb, hd]
      have hpos := runEntry_min_pos t (updateEntryT d a)
        (by rw [hd']; exact hupos)
        (fun u hmem => hu u (by rw [hun]; exact List.mem_cons_of_mem _ hmem))
      rw [runEntry] at hpos
      rw [hpos, hd', hun]
      rfl
    · have hun := unitsOf_cons_neg a t hb
      have hd' : (updateEntryT d a).min_buyout = 0 := by
        rw [updateEntryT_min_buyout]
        simp [hb, hd]
      have ihh := ih (updateEntryT d a) hd'
        (fun u hmem => hu u (by rw [hun]; exact hmem))
      rw [runEntry] at ihh
      rw [ihh, hun]

theorem unitsOf_filter (l : List Auction) (id : Int) :
    unitsOf (l.filter (sameItem id)) = unitBuyouts l id := by
  unfold unitsOf unitBuyouts
  rw [List.filter_filter]
  congr 1
  exact List.filter_congr fun a _ => Bool.and_comm _ _

theorem unitsOf_pos (l : List Auction)
    (h : ∀ a ∈ l, 0 < a.buyout → 0 < Int.tdiv a.buyout a.quantity) :
    ∀ u ∈ unitsOf l, 0 < u := by
  intro u hu
  unfold unitsOf at hu
  rcases List.mem_map.mp hu with ⟨a, ha, rfl⟩
  rcases List.mem_filter.mp ha with ⟨hal, hb⟩
  exact h a hal (by simpa using hb)

/-- Scenario A of the spec, used as concrete witness input. -/
def scenarioA : List Auction :=
  [⟨1, ⟨1, none, none⟩, 0, 100, 10, "LONG"⟩,
   ⟨2, ⟨1, none, none⟩, 0, 0, 5, "LONG"⟩,
   ⟨3, ⟨2, none, none⟩, 0, 60, 2, "LONG"⟩]

instance : Std.Antisymm fun a b : Int => a ≤ b where
  antisymm h1 h2 := le_antisymm h1 h2

theorem min?_eq_some_iff_int (xs : List Int) (a : Int) :
    xs.min? = some a ↔ a ∈ xs ∧ ∀ b ∈ xs, a ≤ b :=
  List.min?_eq_some_iff (fun _ => le_refl _) (fun a b => min_choice a b)
    (fun _ _ _ => le_min_iff)

theorem min?_perm (l l' : List Int) (h : l.Perm l') : l.min? = l'.min? := by
  cases hl : l.min? with
  | none =>
    have hnil : l = [] := List.min?_eq_none_iff.mp hl
    subst hnil
    rw [h.symm.eq_nil]
    rfl
  | some a =>
    rcases (min?_eq_some_iff_int l a).mp hl with ⟨hmem, hle⟩
    exact ((min?_eq_some_iff_int l' a).mpr
      ⟨h.mem_iff.mp hmem, fun b hb => hle b (h.mem_iff.mpr hb)⟩).symm

theorem ItemData.eq_of_fields (d e : ItemData) (h1 : d.auctions = e.auctions)
    (h2 : d.total_items = e.total_items)
    (h3 : d.min_buyout = e.min_buyout) : d = e := by
  cases d
  cases e
  simp_all

theorem foldl_saturating_add (qs : List Int) :
    ∀ t : Int, 0 ≤ t → t ≤ i64Max → (∀ q ∈ qs, 0 ≤ q) →
      List.foldl saturating_add t qs = min i64Max (t + qs.sum) := by
  induction qs with
  | nil =>
    intro t ht hle _
    rw [List.foldl_nil, List.sum_nil, add_zero]
    unfold i64Max at hle ⊢
    omega
  | cons q qs ih =>
    intro t ht hle hq
    have hq0 : 0 ≤ q := hq q (List.mem_cons_self _ _)
    have hS : 0 ≤ qs.sum :=
      List.sum_nonneg fun x hx => hq x (List.mem_cons_of_mem _ hx)
    have h1 : saturating_add t q = min i64Max (t + q) := by
      unfold saturating_add i64Min i64Max
      omega
    rw [List.foldl_cons, List.sum_cons, h1,
      ih _ (by unfold i64Max; omega) (min_le_left _ _)
        (fun x hx => hq x (List.mem_cons_of_mem _ hx))]
    unfold i64Max
    omega

/-- C1 counterexample: for the listings (buyout 1, quantity 2) and
(buyout 100, quantity 1) of item 1, the loop produces min_buyout = 100,
while the minimum over the unit buyouts 0 and 100 is 0: the zero unit
buyout of the first listing leaves the sentinel at 0, and the second
positive-buyout listing then overwrites it unconditionally. -/
theorem min_buyout_zero_unit_cex :
    (aggregate [⟨1, ⟨1, none, none⟩, 0, 1, 2, "SHORT"⟩,
                ⟨2, ⟨1, none, none⟩, 0, 100, 1, "SHORT"⟩]).map (fun m => m 1) =
      some (some ⟨2, 3, 100⟩) ∧
    ((unitBuyouts [⟨1, ⟨1, none, none⟩, 0, 1, 2, "SHORT"⟩,
                   ⟨2, ⟨1, none, none⟩, 0, 100, 1, "SHORT"⟩] 1).min?).getD 0 = 0 ∧
    (100 : Int) ≠ 0 :=
  ⟨by decide, by decide, by decide⟩

/-- C1 (amended): when every listing with positive buyout has nonzero
quantity and a positive unit buyout, the aggregate's min_buyout for every
item id equals the minimum over that id's listings with buyout > 0 of
buyout / quantity, and equals 0 when no such listing exists. -/
theorem min_buyout_char (l : List Auction) (id : Int)
    (h : ∀ a ∈ l, 0 < a.buyout →
      a.quantity ≠ 0 ∧ 0 < Int.tdiv a.buyout a.quantity) :
    ∃ m, aggregate l = some m ∧
      ∀ d, m id = some d →
        d.min_buyout = ((unitBuyouts l id).min?).getD 0 := by
  refine ⟨aggregateT l, aggregate_eq_some l (fun a ha hb => (h a ha hb).1), ?_⟩
  intro d hd
  rw [aggregateT_apply] at hd
  by_cases hemp : l.filter (sameItem id) = []
  · rw [if_pos hemp] at hd
    cases hd
  · rw [if_neg hemp] at hd
    obtain rfl := Option.some.inj hd
    rw [runEntry_min_zero _ default rfl ?_, unitsOf_filter]
    exact unitsOf_pos _ fun a ha hb => (h a (List.mem_of_mem_filter ha) hb).2

/-- C1 witness: on Scenario A of the spec the hypotheses hold and the
characterization applies to item id 1. -/
theorem min_buyout_char_witness :
    (∀ a ∈ scenarioA, 0 < a.buyout →
      a.quantity ≠ 0 ∧ 0 < Int.tdiv a.buyout a.quantity) ∧
    (∃ m, aggregate scenarioA = some m ∧
      ∀ d, m 1 = some d →
        d.min_buyout = ((unitBuyouts scenarioA 1).min?).getD 0) :=
  ⟨by decide, min_buyout_char scenarioA 1 (by decide)⟩

/-- C3: a listing with quantity = 0 and buyout > 0 reaches the division
`auction.buyout / auction.quantity` at main.rs line 167 with divisor 0,
an i64 division that panics: the aggregation crashes (modelled as none)
instead of handling the listing. -/
theorem aggregate_div_by_zero_panics :
    aggregate [⟨1, ⟨7, none, none⟩, 0, 100, 0, "LONG"⟩] = none ∧
    updateEntry default ⟨1, ⟨7, none, none⟩, 0, 100, 0, "LONG"⟩ = none :=
  ⟨rfl, rfl⟩

/-- C4 counterexample: after the first listing stores min_buyout = 0 (its
unit buyout 1 / 2 is 0), the second listing's unit buyout 100 is not
strictly smaller than the stored 0 and yet replaces it. -/
theorem min_buyout_sentinel_cex :
    updateEntry default ⟨1, ⟨1, none, none⟩, 0, 1, 2, "SHORT"⟩ =
      some ⟨1, 2, 0⟩ ∧
    updateEntry ⟨1, 2, 0⟩ ⟨2, ⟨1, none, none⟩, 0, 100, 1, "SHORT"⟩ =
      some ⟨2, 3, 100⟩ ∧
    ¬ (Int.tdiv 100 1 < (0 : Int)) :=
  ⟨by decide, by decide, by decide⟩

/-- C4 (amended): min_buyout starts at the sentinel 0, and a listing with
buyout > 0 replaces the stored min_buyout with its unit buyout exactly
when the stored value is 0 or the unit buyout is strictly smaller — so a
stored value of 0, whether unset or a computed zero unit buyout, is
always overwritten by the next positive-buyout listing. -/
theorem min_buyout_update_rule (entry : ItemData) (a : Auction)
    (hq : a.quantity ≠ 0) :
    (default : ItemData).min_buyout = 0 ∧
    (updateEntry entry a).map ItemData.min_buyout =
      some (if 0 < a.buyout ∧ (entry.min_buyout = 0 ∨
              Int.tdiv a.buyout a.quantity < entry.min_buyout)
            then Int.tdiv a.buyout a.quantity
            else entry.min_buyout) := by
  refine ⟨rfl, ?_⟩
  rw [updateEntry_eq_some entry a fun _ => hq]
  have hmap : (some (updateEntryT entry a)).map ItemData.min_buyout =
      some ((updateEntryT entry a).min_buyout) := rfl
  rw [hmap, updateEntryT_min_buyout]

/-- C4 witness: the update rule applied to a concrete entry and listing. -/
theorem min_buyout_update_rule_witness :
    ((3 : Int) ≠ 0) ∧
    ((default : ItemData).min_buyout = 0 ∧
    (updateEntry ⟨1, 5, 40⟩ ⟨9, ⟨2, none, none⟩, 0, 90, 3, "LONG"⟩).map
        ItemData.min_buyout =
      some (if 0 < (90 : Int) ∧ ((40 : Int) = 0 ∨
              Int.tdiv 90 3 < (40 : Int))
            then Int.tdiv 90 3
            else 40)) :=
  ⟨by decide,
    min_buyout_update_rule ⟨1, 5, 40⟩ ⟨9, ⟨2, none, none⟩, 0, 90, 3, "LONG"⟩
      (by decide)⟩

/-- C5: when no listing panics the loop, the aggregate map has a key
exactly for every occurring item id, and that entry's count equals the
number of listings carrying that id. -/
theorem count_and_keys (l : List Auction) (id : Int)
    (h : ∀ a ∈ l, 0 < a.buyout → a.quantity ≠ 0) :
    ∃ m, aggregate l = some m ∧
      ((m id).isSome ↔ id ∈ l.map fun a => a.item.id) ∧
      ∀ d, m id = some d →
        d.auctions = ((l.filter (sameItem id)).length : Int) := by
  refine ⟨aggregateT l, aggregate_eq_some l h, ?_, ?_⟩
  · rw [aggregateT_apply]
    by_cases hemp : l.filter (sameItem id) = []
    · rw [if_pos hemp]
      simp only [Option.isSome_none, Bool.false_eq_true, false_iff]
      intro hmem
      rcases List.mem_map.mp hmem with ⟨a, ha, haid⟩
      have : sameItem id a = true := by simp [sameItem, haid]
      exact (List.filter_eq_nil_iff.mp hemp a ha) this
    · rw [if_neg hemp]
      simp only [Option.isSome_some, true_iff]
      rcases List.exists_mem_of_ne_nil _ hemp with ⟨a, ha⟩
      rcases List.mem_filter.mp ha with ⟨hal, hb⟩
      exact List.mem_map.mpr ⟨a, hal, by simpa [sameItem] using hb⟩
  · intro d hd
    rw [aggregateT_apply] at hd
    by_cases hemp : l.filter (sameItem id) = []
    · rw [if_pos hemp] at hd
      cases hd
    · rw [if_neg hemp] at hd
      obtain rfl := Option.some.inj hd
      rw [runEntry_auctions]
      show (0 : Int) + _ = _
      omega

/-- C5 witness: Scenario A has two listings of item 1 and the key 1 is
present. -/
theorem count_and_keys_witness :
    (∀ a ∈ scenarioA, 0 < a.buyout → a.quantity ≠ 0) ∧
    (∃ m, aggregate scenarioA = some m ∧
      ((m 1).isSome ↔ 1 ∈ scenarioA.map fun a => a.item.id) ∧
      ∀ d, m 1 = some d →
        d.auctions = ((scenarioA.filter (sameItem 1)).length : Int)) :=
  ⟨by decide, count_and_keys scenarioA 1 (by decide)⟩

/-- C6: when no listing panics the loop, every aggregate entry's
total_items is the fold, in input order, of i64 saturating addition of the
quantities of that id's listings — `saturating_add` clamps the exact sum
into the representable i64 range instead of wrapping. -/
theorem total_items_saturating_sum (l : List Auction) (id : Int)
    (h : ∀ a ∈ l, 0 < a.buyout → a.quantity ≠ 0) :
    ∃ m, aggregate l = some m ∧
      ∀ d, m id = some d →
        d.total_items =
          List.foldl (fun t a => saturating_add t a.quantity) 0
            (l.filter (sameItem id)) := by
  refine ⟨aggregateT l, aggregate_eq_some l h, ?_⟩
  intro d hd
  rw [aggregateT_apply] at hd
  by_cases hemp : l.filter (sameItem id) = []
  · rw [if_pos hemp] at hd
    cases hd
  · rw [if_neg hemp] at hd
    obtain rfl := Option.some.inj hd
    exact runEntry_total_items _ default

/-- C2 counterexample: the two listings of item 1 with unit buyouts 0 and
100 yield min_buyout = 100 in one order and min_buyout = 0 in the other,
so the aggregate mapping is not invariant under permutation. -/
theorem aggregate_perm_cex :
    List.Perm
      [⟨1, ⟨1, none, none⟩, 0, 1, 2, "SHORT"⟩,
       ⟨2, ⟨1, none, none⟩, 0, 100, 1, "SHORT"⟩]
      [⟨2, ⟨1, none, none⟩, 0, 100, 1, "SHORT"⟩,
       (⟨1, ⟨1, none, none⟩, 0, 1, 2, "SHORT"⟩ : Auction)] ∧
    (aggregate [⟨1, ⟨1, none, none⟩, 0, 1, 2, "SHORT"⟩,
                ⟨2, ⟨1, none, none⟩, 0, 100, 1, "SHORT"⟩]).map (fun m => m 1) =
      some (some ⟨2, 3, 100⟩) ∧
    (aggregate [⟨2, ⟨1, none, none⟩, 0, 100, 1, "SHORT"⟩,
                ⟨1, ⟨1, none, none⟩, 0, 1, 2, "SHORT"⟩]).map (fun m => m 1) =
      some (some ⟨2, 3, 0⟩) ∧
    (aggregate [⟨1, ⟨1, none, none⟩, 0, 1, 2, "SHORT"⟩,
                ⟨2, ⟨1, none, none⟩, 0, 100, 1, "SHORT"⟩]).map (fun m => m 1) ≠
    (aggregate [⟨2, ⟨1, none, none⟩, 0, 100, 1, "SHORT"⟩,
                ⟨1, ⟨1, none, none⟩, 0, 1, 2, "SHORT"⟩]).map (fun m => m 1) :=
  ⟨by decide, by decide, by decide, by decide⟩

/-- C2 (amended): for input sequences in which every quantity is
nonnegative and every listing with positive buyout has nonzero quantity
and positive unit buyout, the aggregation result for every item id is
invariant under any permutation of the sequence; without the positive
unit-buyout condition a zero unit buyout resets the min_buyout sentinel
and the result depends on the processing order. -/
theorem aggregate_perm_invariant (l l' : List Auction) (hp : l.Perm l')
    (hq : ∀ a ∈ l, 0 ≤ a.quantity)
    (h : ∀ a ∈ l, 0 < a.buyout →
      a.quantity ≠ 0 ∧ 0 < Int.tdiv a.buyout a.quantity) :
    ∀ id : Int, (aggregate l).map (fun m => m id) =
      (aggregate l').map (fun m => m id) := by
  intro id
  have h' : ∀ a ∈ l', 0 < a.buyout →
      a.quantity ≠ 0 ∧ 0 < Int.tdiv a.buyout a.quantity :=
    fun a ha => h a (hp.mem_iff.mpr ha)
  rw [aggregate_eq_some l fun a ha hb => (h a ha hb).1,
    aggregate_eq_some l' fun a ha hb => (h' a ha hb).1]
  have hgoal : aggregateT l id = aggregateT l' id := by
    rw [aggregateT_apply, aggregateT_apply]
    have hpf : (l.filter (sameItem id)).Perm (l'.filter (sameItem id)) :=
      hp.filter _
    by_cases hemp : l.filter (sameItem id) = []
    · have hemp' : l'.filter (sameItem id) = [] := by
        rw [hemp] at hpf
        exact hpf.symm.eq_nil
      rw [if_pos hemp, if_pos hemp']
    · have hemp' : ¬ l'.filter (sameItem id) = [] := by
        intro hcon
        rw [hcon] at hpf
        exact hemp hpf.eq_nil
      rw [if_neg hemp, if_neg hemp']
      have hsubq : ∀ a ∈ l.filter (sameItem id), 0 ≤ a.quantity :=
        fun a ha => hq a (List.mem_of_mem_filter ha)
      have hsubu : ∀ a ∈ l.filter (sameItem id), 0 < a.buyout →
          a.quantity ≠ 0 ∧ 0 < Int.tdiv a.buyout a.quantity :=
        fun a ha => h a (List.mem_of_mem_filter ha)
      have hsubq' : ∀ a ∈ l'.filter (sameItem id), 0 ≤ a.quantity :=
        fun a ha => hq a (hp.mem_iff.mpr (List.mem_of_mem_filter ha))
      have hsubu' : ∀ a ∈ l'.filter (sameItem id), 0 < a.buyout →
          a.quantity ≠ 0 ∧ 0 < Int.tdiv a.buyout a.quantity :=
        fun a ha => h' a (List.mem_of_mem_filter ha)
      congr 1
      apply ItemData.eq_of_fields
      · rw [runEntry_auctions, runEntry_auctions, hpf.length_eq]
      · have hd0 : (default : ItemData).total_items = (0 : Int) := rfl
        rw [runEntry_total_items, runEntry_total_items,
          ← List.foldl_map (fun a : Auction => a.quantity) saturating_add,
          ← List.foldl_map (fun a : Auction => a.quantity) saturating_add,
          hd0,
          foldl_saturating_add _ 0 le_rfl (by unfold i64Max; omega)
            (fun q hq2 => by
              rcases List.mem_map.mp hq2 with ⟨a, ha, rfl⟩
              exact hsubq a ha),
          foldl_saturating_add _ 0 le_rfl (by unfold i64Max; omega)
            (fun q hq2 => by
              rcases List.mem_map.mp hq2 with ⟨a, ha, rfl⟩
              exact hsubq' a ha),
          (hpf.map _).sum_eq]
      · have hperm : (unitsOf (l.filter (sameItem id))).Perm
            (unitsOf (l'.filter (sameItem id))) := by
          unfold unitsOf
          exact (hpf.filter _).map _
        rw [runEntry_min_zero _ default rfl
            (unitsOf_pos _ fun a ha hb => (hsubu a ha hb).2),
          runEntry_min_zero _ default rfl
            (unitsOf_pos _ fun a ha hb => (hsubu' a ha hb).2),
          min?_perm _ _ hperm]
  show some (aggregateT l id) = some (aggregateT l' id)
  rw [hgoal]

/-- C2 witness: Scenario A and a rotation of it agree on item id 1. -/
theorem aggregate_perm_invariant_witness :
    List.Perm scenarioA
      [⟨3, ⟨2, none, none⟩, 0, 60, 2, "LONG"⟩,
       ⟨1, ⟨1, none, none⟩, 0, 100, 10, "LONG"⟩,
       (⟨2, ⟨1, none, none⟩, 0, 0, 5, "LONG"⟩ : Auction)] ∧
    (aggregate scenarioA).map (fun m => m 1) =
      (aggregate
        [⟨3, ⟨2, none, none⟩, 0, 60, 2, "LONG"⟩,
         ⟨1, ⟨1, none, none⟩, 0, 100, 10, "LONG"⟩,
         ⟨2, ⟨1, none, none⟩, 0, 0, 5, "LONG"⟩]).map (fun m => m 1) :=
  ⟨by decide,
    aggregate_perm_invariant scenarioA
      [⟨3, ⟨2, none, none⟩, 0, 60, 2, "LONG"⟩,
       ⟨1, ⟨1, none, none⟩, 0, 100, 10, "LONG"⟩,
       ⟨2, ⟨1, none, none⟩, 0, 0, 5, "LONG"⟩]
      (by decide) (by decide) (by decide) 1⟩

/-- C6 witness: on Scenario A, item 1 accumulates quantities 10 and 5. -/
theorem total_items_saturating_sum_witness :
    (∀ a ∈ scenarioA, 0 < a.buyout → a.quantity ≠ 0) ∧
    (∃ m, aggregate scenarioA = some m ∧
      ∀ d, m 1 = some d →
        d.total_items =
          List.foldl (fun t a => saturating_add t a.quantity) 0
            (scenarioA.filter (sameItem 1))) :=
  ⟨by decide, total_items_saturating_sum scenarioA 1 (by decide)⟩

/-- An influxdb2 `DataPoint` as built at main.rs lines 176-188: the
measurement name, the tags in the order the builder adds them, and the
integer (i64) fields in builder order. -/
structure DataPoint where
  measurement : String
  tags : List (String × String)
  fields : List (String × Int)
deriving DecidableEq, Repr

/-- One `client.write(bucket, points)` call (main.rs lines 191-193). -/
structure WriteCall where
  bucket : String
  points : List DataPoint
deriving DecidableEq, Repr

/-- The point built for one `(id, data)` pair of `by_items` (main.rs lines
176-188): measurement "auctions"; tags item_id, realm_id, ah_id from
`to_string` of the ids; the optional item_name tag added afterwards when
`names_by_id.get(&id)` is Some; fields count, total_items, min_buyout from
the aggregate.  `DataPoint::build` cannot fail here (measurement and
fields are always present), so no error case is modelled. -/
def buildPoint (names : Int → Option String) (realm ah id : Int)
    (d : ItemData) : DataPoint :=
  { measurement := "auctions"
    tags :=
      [("item_id", toString id), ("realm_id", toString realm),
       ("ah_id", toString ah)] ++
        ((names id).elim [] fun name => [("item_name", name)])
    fields :=
      [("count", d.auctions), ("total_items", d.total_items),
       ("min_buyout", d.min_buyout)] }

/-- The key set of `by_items`, enumerated in a fixed order.  The Rust
`for (id, data) in by_items` iterates a HashMap in unspecified order; the
model picks the deduplicated occurrence order of the ids. -/
def itemIds (auctions : List Auction) : List Int :=
  (auctions.map fun a => a.item.id).dedup

/-- update_prices after its fetch (main.rs lines 160-195): aggregate the
listings, build one point per item id of `by_items`, and issue the single
batched write of all points to the configured bucket.  `none` models the
aggregation panic. -/
def update_prices (names : Int → Option String) (bucket : String)
    (realm ah : Int) (auctions : List Auction) : Option WriteCall :=
  (aggregate auctions).map fun m =>
    { bucket := bucket
      points := (itemIds auctions).map
        fun id => buildPoint names realm ah id ((m id).getD default) }

/-- C7: the point built for an item id carries the tag item_name exactly
when the reference name mapping has that id as a key, and the tag value is
exactly the stored name. -/
theorem item_name_tag_iff (names : Int → Option String) (realm ah id : Int)
    (d : ItemData) (v : String) :
    ("item_name", v) ∈ (buildPoint names realm ah id d).tags ↔
      names id = some v := by
  unfold buildPoint
  cases hn : names id with
  | none =>
    simp only [Option.elim, List.append_nil, List.mem_cons,
      List.not_mem_nil, or_false, Prod.mk.injEq]
    constructor
    · rintro (⟨h1, _⟩ | ⟨h1, _⟩ | ⟨h1, _⟩) <;> exact absurd h1 (by decide)
    · rintro ⟨⟩
  | some name =>
    simp only [Option.elim, List.mem_append, List.mem_cons,
      List.not_mem_nil, or_false, Prod.mk.injEq, Option.some.injEq]
    constructor
    · rintro ((⟨h1, _⟩ | ⟨h1, _⟩ | ⟨h1, _⟩) | ⟨_, h2⟩)
      · exact absurd h1 (by decide)
      · exact absurd h1 (by decide)
      · exact absurd h1 (by decide)
      · exact h2.symm
    · rintro rfl
      exact Or.inr ⟨trivial, rfl⟩

/-- C7 witness: a mapping holding id 5 with name Thunderfury produces the
item_name tag with exactly that value. -/
theorem item_name_tag_iff_witness :
    ("item_name", "Thunderfury") ∈
      (buildPoint (fun i => if i = 5 then some "Thunderfury" else none)
        3 4 5 ⟨1, 2, 3⟩).tags :=
  (item_name_tag_iff (fun i => if i = 5 then some "Thunderfury" else none)
    3 4 5 ⟨1, 2, 3⟩ "Thunderfury").mpr (by decide)

/-- C8: when no listing panics the loop, update_prices performs exactly
one write call, to the configured bucket, holding one point per item id of
the aggregate; every such point has measurement "auctions", the three
stringified tags (plus item_name when resolvable), and the three integer
fields taken from that id's aggregate. -/
theorem metric_points_shape (names : Int → Option String) (bucket : String)
    (realm ah : Int) (auctions : List Auction)
    (h : ∀ a ∈ auctions, 0 < a.buyout → a.quantity ≠ 0) :
    ∃ m w, aggregate auctions = some m ∧
      update_prices names bucket realm ah auctions = some w ∧
      w.bucket = bucket ∧
      w.points = (itemIds auctions).map
        (fun id => buildPoint names realm ah id ((m id).getD default)) ∧
      ∀ id ∈ itemIds auctions, ∃ d, m id = some d ∧
        (buildPoint names realm ah id d).measurement = "auctions" ∧
        (buildPoint names realm ah id d).tags =
          [("item_id", toString id), ("realm_id", toString realm),
           ("ah_id", toString ah)] ++
            ((names id).elim [] fun n => [("item_name", n)]) ∧
        (buildPoint names realm ah id d).fields =
          [("count", d.auctions), ("total_items", d.total_items),
           ("min_buyout", d.min_buyout)] := by
  have hm := aggregate_eq_some auctions h
  refine ⟨aggregateT auctions,
    { bucket := bucket
      points := (itemIds auctions).map
        fun id => buildPoint names realm ah id
          ((aggregateT auctions id).getD default) },
    hm, ?_, rfl, rfl, ?_⟩
  · unfold update_prices
    rw [hm]
    rfl
  · intro id hid
    have hmem : id ∈ auctions.map fun a => a.item.id := List.mem_dedup.mp hid
    rcases List.mem_map.mp hmem with ⟨a, ha, haid⟩
    have hfil : a ∈ auctions.filter (sameItem id) :=
      List.mem_filter.mpr ⟨ha, by simp [sameItem, haid]⟩
    have hemp : ¬ auctions.filter (sameItem id) = [] :=
      List.ne_nil_of_mem hfil
    refine ⟨runEntry default (auctions.filter (sameItem id)), ?_, rfl, rfl, rfl⟩
    rw [aggregateT_apply, if_neg hemp]

/-- C8 witness: Scenario A produces one batched write of two points. -/
theorem metric_points_shape_witness :
    (∀ a ∈ scenarioA, 0 < a.buyout → a.quantity ≠ 0) ∧
    (∃ m w, aggregate scenarioA = some m ∧
      update_prices (fun _ => none) "gold" 10 2 scenarioA = some w ∧
      w.bucket = "gold" ∧
      w.points = (itemIds scenarioA).map
        (fun id => buildPoint (fun _ => none) 10 2 id ((m id).getD default)) ∧
      ∀ id ∈ itemIds scenarioA, ∃ d, m id = some d ∧
        (buildPoint (fun _ => none) 10 2 id d).measurement = "auctions" ∧
        (buildPoint (fun _ => none) 10 2 id d).tags =
          [("item_id", toString id), ("realm_id", toString (10 : Int)),
           ("ah_id", toString (2 : Int))] ++
            (((fun _ => none : Int → Option String) id).elim []
              fun n => [("item_name", n)]) ∧
        (buildPoint (fun _ => none) 10 2 id d).fields =
          [("count", d.auctions), ("total_items", d.total_items),
           ("min_buyout", d.min_buyout)]) :=
  ⟨by decide, metric_points_shape (fun _ => none) "gold" 10 2 scenarioA (by decide)⟩

/-- Failure modes of one (realm, auction-house) pass of update_prices:
the fetch can fail (transport or parse, main.rs lines 156-158), the
aggregation can panic on a zero-quantity listing (line 167), or the
batched write can be rejected (lines 191-193). -/
inductive UpdateError where
  | fetchFailed (msg : String)
  | divByZero
  | writeFailed (msg : String)
deriving DecidableEq, Repr

/-- One full update_prices call for a pair, with the two effectful
collaborators passed as oracles: `fetch` is `get_auctions` and `write` is
`client.write` (`none` meaning success).  Returns the completed write on
success, and the first error otherwise. -/
def pairOutcome (fetch : Int → Int → Except String (List Auction))
    (write : WriteCall → Option String) (names : Int → Option String)
    (bucket : String) (p : Int × Int) : Except UpdateError WriteCall :=
  match fetch p.1 p.2 with
  | .error e => .error (.fetchFailed e)
  | .ok auctions =>
    match update_prices names bucket p.1 p.2 auctions with
    | none => .error .divByZero
    | some w =>
      match write w with
      | some e => .error (.writeFailed e)
      | none => .ok w

/-- The update loop of perform_single_update (main.rs lines 97-108): the
configured pairs are processed strictly in order, each pair's write
completing before the next pair starts, and the `?` operator aborts the
loop on the first error.  The result is the list of completed writes, in
order, together with the error that stopped the loop, if any. -/
def perform_single_update (fetch : Int → Int → Except String (List Auction))
    (write : WriteCall → Option String) (names : Int → Option String)
    (bucket : String) : List (Int × Int) → List WriteCall × Option UpdateError
  | [] => ([], none)
  | p :: rest =>
    match pairOutcome fetch write names bucket p with
    | .error e => ([], some e)
    | .ok w =>
      let r := perform_single_update fetch write names bucket rest
      (w :: r.1, r.2)

/-- C9: if every pair of the prefix succeeds and pair `p` fails (at its
fetch, its aggregation, or its write), the run returns exactly the
completed writes of the prefix, in order, together with p's error; the
pairs after `p` do not occur in the result at all — the right-hand side
does not depend on `post`, so no later pair is fetched or written. -/
theorem update_fail_fast (fetch : Int → Int → Except String (List Auction))
    (write : WriteCall → Option String) (names : Int → Option String)
    (bucket : String) (pre post : List (Int × Int)) (p : Int × Int)
    (e : UpdateError)
    (hpre : ∀ q ∈ pre, ∃ w, pairOutcome fetch write names bucket q = .ok w)
    (hp : pairOutcome fetch write names bucket p = .error e) :
    perform_single_update fetch write names bucket (pre ++ p :: post) =
      (pre.filterMap
        (fun q => (pairOutcome fetch write names bucket q).toOption),
       some e) := by
  induction pre with
  | nil =>
    show perform_single_update fetch write names bucket (p :: post) = _
    unfold perform_single_update
    rw [hp]
    rfl
  | cons q qs ih =>
    obtain ⟨w, hw⟩ := hpre q (List.mem_cons_self _ _)
    have ihh := ih fun x hx => hpre x (List.mem_cons_of_mem _ hx)
    show perform_single_update fetch write names bucket
      (q :: (qs ++ p :: post)) = _
    unfold perform_single_update
    rw [hw, List.filterMap_cons, ihh, hw]
    rfl

/-- Fetch oracle for the C9 witness: realm 1 answers Scenario A, every
other realm fails with a transport error. -/
def fetchW : Int → Int → Except String (List Auction) :=
  fun realm _ => if realm = 1 then .ok scenarioA else .error "boom"

/-- C9 witness: with pairs [(1,2), (3,4), (5,6)], the first pair's write
completes, the run stops at (3,4) with its fetch error, and (5,6) is
never processed. -/
theorem update_fail_fast_witness :
    (∀ q ∈ [((1 : Int), (2 : Int))],
      ∃ w, pairOutcome fetchW (fun _ => none) (fun _ => none) "gold" q = .ok w) ∧
    pairOutcome fetchW (fun _ => none) (fun _ => none) "gold" (3, 4) =
      .error (.fetchFailed "boom") ∧
    perform_single_update fetchW (fun _ => none) (fun _ => none) "gold"
        [(1, 2), (3, 4), (5, 6)] =
      ([((1 : Int), (2 : Int))].filterMap
        (fun q => (pairOutcome fetchW (fun _ => none) (fun _ => none)
          "gold" q).toOption),
       some (.fetchFailed "boom")) :=
  ⟨fun q hq => by
      rcases List.mem_singleton.mp hq with rfl
      exact ⟨_, rfl⟩,
   rfl,
   update_fail_fast fetchW (fun _ => none) (fun _ => none) "gold"
     [(1, 2)] [(5, 6)] (3, 4) (.fetchFailed "boom")
     (fun q hq => by
       rcases List.mem_singleton.mp hq with rfl
       exact ⟨_, rfl⟩)
     rfl⟩

/-- Decimal digit run: `some` of the value when the characters are one or
more ASCII digits, `none` otherwise. -/
def parseNatDigits (cs : List Char) : Option Nat :=
  if cs = [] then none
  else if cs.all fun c => c.isDigit then
    some (cs.foldl (fun acc c => acc * 10 + (c.toNat - 48)) 0)
  else none

/-- Rust `i64::from_str(s).ok()` (main.rs line 205), modelled from the
documented std grammar: an optional `+` or `-` sign followed by one or
more decimal digits, rejecting values outside the i64 range. -/
def parseI64 (s : String) : Option Int :=
  match s.data with
  | '+' :: rest =>
    (parseNatDigits rest).bind fun n =>
      if (n : Int) ≤ i64Max then some (n : Int) else none
  | '-' :: rest =>
    (parseNatDigits rest).bind fun n =>
      if i64Min ≤ -(n : Int) then some (-(n : Int)) else none
  | _ =>
    (parseNatDigits s.data).bind fun n =>
      if (n : Int) ≤ i64Max then some (n : Int) else none

/-- One iteration of the record loop of read_names_by_id (main.rs lines
202-211) on an already tokenized record.  The csv crate (default
configuration) yields an Err — skipped by the `if let Ok` — for any record
whose field count differs from the header's, and `record.get(0)` /
`record.get(6)` return options; a row passing all of it inserts
(id, name), overwriting any earlier entry. -/
def namesStep (header : List String) (m : Int → Option String)
    (record : List String) : Int → Option String :=
  if record.length = header.length then
    match (record.get? 0).bind parseI64, record.get? 6 with
    | some id, some name => fun k => if k = id then some name else m k
    | some _, none => m
    | none, _ => m
  else m

/-- read_names_by_id (main.rs lines 198-214) on the tokenized rows of the
bundled CSV.  The csv crate's `Reader` has `has_headers = true` by
default, so `records()` starts after the first row: the head of `rows` is
consumed as the header and contributes no entry. -/
def read_names_by_id (rows : List (List String)) : Int → Option String :=
  match rows with
  | [] => fun _ => none
  | header :: records => records.foldl (namesStep header) fun _ => none

/-- A record of the bundled CSV that inserts an entry for `id`: full
width, column 0 parsing to `id`, column 6 present. -/
def rowMatches (header : List String) (id : Int) (record : List String) : Bool :=
  record.length == header.length &&
    ((record.get? 0).bind parseI64 == some id) && (record.get? 6).isSome

theorem namesStep_apply (header : List String) (m0 : Int → Option String)
    (r : List String) (id : Int) :
    namesStep header m0 r id =
      if rowMatches header id r then r.get? 6 else m0 id := by
  unfold namesStep rowMatches
  by_cases hlen : r.length = header.length
  · rw [if_pos hlen]
    cases hid : (r.get? 0).bind parseI64 with
    | none => simp [Bool.and_eq_true]
    | some id2 =>
      cases hname : r.get? 6 with
      | none => simp [Bool.and_eq_true]
      | some nm =>
        by_cases hi : id = id2
        · subst hi
          simp [Bool.and_eq_true, beq_iff_eq, hlen]
        · have hi2 : ¬ id2 = id := fun hcon => hi hcon.symm
          simp [Bool.and_eq_true, beq_iff_eq, hi, hi2]
  · rw [if_neg hlen]
    simp [Bool.and_eq_true, beq_iff_eq, hlen]

theorem foldl_namesStep (header : List String) (id : Int)
    (records : List (List String)) :
    ∀ m0 : Int → Option String,
      List.foldl (namesStep header) m0 records id =
        (records.reverse.find? (rowMatches header id)).elim (m0 id)
          fun r => r.get? 6 := by
  induction records with
  | nil => intro m0; rfl
  | cons r rs ih =>
    intro m0
    rw [List.foldl_cons, ih, List.reverse_cons, List.find?_append]
    cases hfind : rs.reverse.find? (rowMatches header id) with
    | some r2 => rfl
    | none =>
      show namesStep header m0 r id =
        (List.find? (rowMatches header id) [r]).elim (m0 id) fun x => x.get? 6
      rw [namesStep_apply]
      by_cases hP : rowMatches header id r = true
      · rw [List.find?_cons_of_pos _ hP, if_pos hP]
        rfl
      · rw [List.find?_cons_of_neg _ hP, if_neg hP]
        rfl

/-- C10: the mapping never holds an entry from the first CSV row — the
reader consumes it as the header — so an id occurring only there is absent
and resolves to no name; for ids on later full-width parseable rows, the
stored name is the one of the last such row (the last match of the
reversed record list). -/
theorem names_by_id_header_last (header : List String)
    (records : List (List String)) (id : Int) :
    (read_names_by_id (header :: records) id =
      (records.reverse.find? (rowMatches header id)).elim none
        fun r => r.get? 6) ∧
    ((∀ r ∈ records, rowMatches header id r = false) →
      read_names_by_id (header :: records) id = none) := by
  constructor
  · exact foldl_namesStep header id records fun _ => none
  · intro hnone
    rw [show read_names_by_id (header :: records) id =
        List.foldl (namesStep header) (fun _ => none) records id from rfl,
      foldl_namesStep]
    have hfind : records.reverse.find? (rowMatches header id) = none := by
      rw [List.find?_eq_none]
      intro r hr
      rw [hnone r (List.mem_reverse.mp hr)]
      exact Bool.false_ne_true
    rw [hfind]
    rfl

/-- Header row used by the C10 witness: its id 9 appears nowhere else. -/
def csvHeader : List String := ["9", "c1", "c2", "c3", "c4", "c5", "HeaderOnly"]

/-- Two later rows for item id 5 used by the C10 witness. -/
def csvRow1 : List String := ["5", "c1", "c2", "c3", "c4", "c5", "First"]

/-- Second, last-wins row for item id 5 used by the C10 witness. -/
def csvRow2 : List String := ["5", "c1", "c2", "c3", "c4", "c5", "Last"]

/-- C10 witness: id 9 occurs only on the header line and resolves to no
name; the characterization applies to the two rows of id 5 (their reversed
search yields the later row, name "Last"). -/
theorem names_by_id_header_last_witness :
    (∀ r ∈ [csvRow1, csvRow2], rowMatches csvHeader 9 r = false) ∧
    read_names_by_id [csvHeader, csvRow1, csvRow2] 9 = none ∧
    read_names_by_id [csvHeader, csvRow1, csvRow2] 5 =
      (([csvRow1, csvRow2].reverse.find? (rowMatches csvHeader 5)).elim none
        fun r => r.get? 6) :=
  ⟨by decide,
   (names_by_id_header_last csvHeader [csvRow1, csvRow2] 9).2 (by decide),
   (names_by_id_header_last csvHeader [csvRow1, csvRow2] 5).1⟩

end WowInflux

